import Mathlib

/-! # gitem: pagination over the repository listing and clone-or-pull reconciliation

A shallow embedding of `main.go`.  Go strings are byte sequences; here a string is a
list whose elements stand for the bytes (written as characters).  The operating system,
the `git` subprocess and the HTTP transport are oracles over an explicit world state.
Log output and the debug dump of the response body are not modelled: they do not
influence control flow or any returned value.
-/

namespace Gitem

/-- A Go `string`: a sequence of bytes. -/
abbrev GoString := List Char

/-- A Go `error` value, identified with its message. -/
abbrev GoError := GoString

/-! ## The `strings` functions used by the program -/

/-- The index of the first position at which `sep` starts in the string, if any. -/
def indexAux (sep : GoString) : GoString → Option Nat
  | [] => if sep.isPrefixOf [] then some 0 else none
  | c :: cs =>
    if sep.isPrefixOf (c :: cs) then some 0 else (indexAux sep cs).map (· + 1)

/-- Go `strings.Index(s, sep)`: first index of `sep` in `s`, or `-1`. -/
def stringsIndex (s sep : GoString) : Int :=
  match indexAux sep s with
  | some i => (i : Int)
  | none => -1

/-- The index of the last position at which `sep` starts in the string, if any. -/
def lastIndexAux (sep : GoString) : GoString → Option Nat
  | [] => if sep.isPrefixOf [] then some 0 else none
  | c :: cs =>
    match lastIndexAux sep cs with
    | some i => some (i + 1)
    | none => if sep.isPrefixOf (c :: cs) then some 0 else none

/-- Go `strings.LastIndex(s, sep)`: last index of `sep` in `s`, or `-1`. -/
def stringsLastIndex (s sep : GoString) : Int :=
  match lastIndexAux sep s with
  | some i => (i : Int)
  | none => -1

/-- Go `strings.HasSuffix(s, suffix)`:
`len(s) >= len(suffix) && s[len(s)-len(suffix):] == suffix`. -/
def stringsHasSuffix (s suffix : GoString) : Bool :=
  decide (suffix.length ≤ s.length) && (s.drop (s.length - suffix.length) == suffix)

/-- The Go slice expression `s[lo:hi]` on a string: `none` is the run-time panic
"slice bounds out of range", raised unless `0 <= lo <= hi <= len(s)`. -/
def goSlice (s : GoString) (lo hi : Int) : Option GoString :=
  if 0 ≤ lo ∧ lo ≤ hi ∧ hi ≤ (s.length : Int) then
    some ((s.drop lo.toNat).take (hi.toNat - lo.toNat))
  else none

/-! ## Literals of the program -/

def dotGit : GoString := ".git".toList
def slash : GoString := "/".toList
def relNext : GoString := "rel=\"next\"".toList
def ltSign : GoString := "<".toList
def gtSign : GoString := ">".toList

def cloneUrlKey : GoString := "clone_url".toList

/-! ## Data model -/

/-- The dynamic type of a decoded JSON value (`interface{}`): a string, or anything else. -/
inductive JsonValue where
  | str (s : GoString)
  | other
  deriving DecidableEq, Repr

/-- One element of a decoded page: `map[string]interface{}`. -/
abbrev Descriptor := List (GoString × JsonValue)

/-- The Go type `ReposResponse`, a slice of maps. -/
abbrev ReposResponse := List Descriptor

/-- The expression `e["clone_url"].(string)`: `none` is the panic of the type assertion
when the key is missing or its value is not a string. -/
def cloneUrl (e : Descriptor) : Option GoString :=
  match e.lookup cloneUrlKey with
  | some (JsonValue.str s) => some s
  | _ => none

/-- How a run (or a part of it) ends. -/
inductive Exit where
  | ok
  | fatal (msg : GoError)
  | panic
  deriving DecidableEq, Repr

/-- The process state: its working directory and the rest of the world (file system,
network, ...). -/
structure Proc (φ : Type) where
  cwd : GoString
  world : φ

/-- What `os.Stat` reports for a path: an error (the path does not exist, or cannot be
examined), a directory, or something that is not a directory. -/
inductive StatResult where
  | error
  | dir
  | notDir
  deriving DecidableEq, Repr

/-- What one started `git` subprocess does: the error of `ioutil.ReadAll(gitOut)`, the
bytes read, and the error of `gitCmd.Wait()`.  The pipes are taken to be created
successfully (the source discards their errors). -/
structure GitRun where
  readErr : Option GoError
  buf : GoString
  waitErr : Option GoError

/-- The operating system as seen by the program. -/
structure OS (φ : Type) where
  pathSeparator : Char
  getwdErr : Proc φ → Option GoError
  chdirErr : Proc φ → GoString → Option GoError
  spawnGit : Proc φ → List GoString → φ × GitRun
  stat : Proc φ → GoString → StatResult

/-! ## `execGitCommand` -/

/-- The function `execGitCommand`: returns the process state at return and the returned
error.  A successful `syscall.Chdir(p)` makes `p` the working directory; a failed one
leaves it as it is.  The first statement only logs (`args[0]` is in range at both call
sites); the error of the final `syscall.Chdir(cwd)` is discarded, as in the source. -/
def execGitCommand {φ : Type} (os : OS φ) (_index _total : Nat) (dirPath _gitUrl : GoString)
    (args : List GoString) (s : Proc φ) : Proc φ × Option GoError :=
  match os.getwdErr s with
  | some err => (s, some err)
  | none =>
    let cwd := s.cwd
    match os.chdirErr s dirPath with
    | some err => (s, some err)
    | none =>
      let s1 : Proc φ := ⟨dirPath, s.world⟩
      let run := os.spawnGit s1 args
      let s2 : Proc φ := ⟨dirPath, run.1⟩
      match run.2.readErr with
      | some err => (s2, some err)
      | none =>
        match os.chdirErr s2 cwd with
        | none => (⟨cwd, s2.world⟩, run.2.waitErr)
        | some _ => (s2, run.2.waitErr)

/-! ## `fetchRepos` -/

/-- The body of the loop over the `Link` entries: the new value of `nextPage`, or `none`
for the slice panic. -/
def cursorStep (nextPage param : GoString) : Option GoString :=
  if stringsIndex param relNext ≠ -1 then
    let s := stringsIndex param ltSign
    let e := stringsIndex param gtSign
    if s ≠ -1 ∧ e ≠ -1 then goSlice param (s + 1) e else some nextPage
  else some nextPage

/-- The loop `for _, param := range params` of `fetchRepos`, started with the given
value of `nextPage`. -/
def cursorLoop : GoString → List GoString → Option GoString
  | nextPage, [] => some nextPage
  | nextPage, param :: rest =>
    match cursorStep nextPage param with
    | none => none
    | some next => cursorLoop next rest

/-- Cursor extraction of `fetchRepos` from `params = header.ParseList(resp.Header, "Link")`:
`nextPage` starts as the empty string. -/
def extractCursor (params : List GoString) : Option GoString :=
  cursorLoop [] params

/-- An HTTP response as `fetchRepos` uses it. -/
structure Response where
  statusCode : Nat
  status : GoString
  linkParams : List GoString
  readErr : Option GoError
  decoded : ReposResponse
  decodeErr : Option GoError

/-- The outcome of building and sending the request. -/
inductive Transport where
  | newRequestErr (err : GoError)
  | doErr (err : GoError)
  | resp (r : Response)

/-- The network: what sending `GET url` with the given credentials does in a world. -/
abbrev Net (φ : Type) := φ → GoString → GoString → GoString → φ × Transport

/-- What a call of `fetchRepos` gives: a panic, or the three results. -/
inductive FetchResult where
  | panic
  | ret (nextPage : GoString) (response : ReposResponse) (err : Option GoError)

/-- The function `fetchRepos`. -/
def fetchRepos {φ : Type} (net : Net φ) (_debug : Bool) (url userName password : GoString)
    (w : φ) : φ × FetchResult :=
  match net w url userName password with
  | (w1, Transport.newRequestErr err) => (w1, FetchResult.ret [] [] (some err))
  | (w1, Transport.doErr err) => (w1, FetchResult.ret [] [] (some err))
  | (w1, Transport.resp r) =>
    if r.statusCode ≠ 200 then (w1, FetchResult.ret [] [] (some r.status))
    else
      match extractCursor r.linkParams with
      | none => (w1, FetchResult.panic)
      | some nextPage =>
        match r.readErr with
        | some err => (w1, FetchResult.ret nextPage [] (some err))
        | none => (w1, FetchResult.ret nextPage r.decoded r.decodeErr)

/-! ## `processResponse` -/

/-- One call of `execGitCommand` made by `processResponse`, with its arguments. -/
structure GitCall where
  index : Nat
  total : Nat
  dirPath : GoString
  gitUrl : GoString
  args : List GoString
  deriving DecidableEq, Repr

/-- The expression `gitUrl[i+1 : len(gitUrl)-4]` with `i` the given index. -/
def dirNameAt (gitUrl : GoString) (i : Int) : Option GoString :=
  goSlice gitUrl (i + 1) ((gitUrl.length : Int) - 4)

/-- The expression `fmt.Sprintf("%s%s%s", rootPath, string(os.PathSeparator), dirName)`. -/
def dirPathOf {φ : Type} (os : OS φ) (rootPath dirName : GoString) : GoString :=
  rootPath ++ [os.pathSeparator] ++ dirName

/-- The result of one iteration of the loop of `processResponse`. -/
inductive Iter (φ : Type) where
  | next (call : GitCall) (err : Option GoError) (s : Proc φ)
  | abort (exit : Exit)

/-- The body of the loop of `processResponse`, for the descriptor `e` at `index`. -/
def processResponseBody {φ : Type} (os : OS φ) (total : Nat) (rootPath : GoString)
    (index : Nat) (e : Descriptor) (s : Proc φ) : Iter φ :=
  match cloneUrl e with
  | none => Iter.abort Exit.panic
  | some gitUrl =>
    if ¬ stringsHasSuffix gitUrl dotGit then
      Iter.abort (Exit.fatal "Missing '.git' from URL..".toList)
    else
      let i := stringsLastIndex gitUrl slash
      if i = -1 then Iter.abort (Exit.fatal "Invalid url format...".toList)
      else
        match dirNameAt gitUrl i with
        | none => Iter.abort Exit.panic
        | some dirName =>
          let dirPath := dirPathOf os rootPath dirName
          match os.stat s dirPath with
          | StatResult.error =>
            let r := execGitCommand os index total rootPath gitUrl ["clone".toList, gitUrl] s
            Iter.next ⟨index, total, rootPath, gitUrl, ["clone".toList, gitUrl]⟩ r.2 r.1
          | StatResult.dir =>
            let r := execGitCommand os index total dirPath gitUrl
              ["pull".toList, "origin".toList] s
            Iter.next ⟨index, total, dirPath, gitUrl, ["pull".toList, "origin".toList]⟩ r.2 r.1
          | StatResult.notDir => Iter.abort (Exit.fatal "Expected directory".toList)

/-- The result of (a part of) `processResponse`: how it ended, the calls of
`execGitCommand` it made in order, and the process state at the end. -/
structure Run (φ : Type) where
  exit : Exit
  calls : List GitCall
  final : Proc φ

/-- The loop `for index, e := range response` of `processResponse`, from `index` on. -/
def processFrom {φ : Type} (os : OS φ) (total : Nat) (rootPath : GoString) :
    Nat → ReposResponse → Proc φ → Run φ
  | _, [], s => ⟨Exit.ok, [], s⟩
  | index, e :: rest, s =>
    match processResponseBody os total rootPath index e s with
    | Iter.abort x => ⟨x, [], s⟩
    | Iter.next call _ s1 =>
      let k := processFrom os total rootPath (index + 1) rest s1
      ⟨k.exit, call :: k.calls, k.final⟩

/-- The function `processResponse`; `Exit.ok` is the return of a nil error. -/
def processResponse {φ : Type} (os : OS φ) (response : ReposResponse)
    (_githubOrgName rootPath : GoString) (s : Proc φ) : Run φ :=
  processFrom os response.length rootPath 0 response s

/-! ## `main` -/

/-- The command-line flags. -/
structure Flags where
  debug : Bool
  rootPath : GoString
  userName : GoString
  password : GoString
  githubOrgName : GoString

/-- The pagination loop after a bounded number of iterations: how it was left (`none`
when it is still running), the aggregated response, the URLs fetched in order, and the
world. -/
structure PageRun (φ : Type) where
  exit : Option Exit
  aggregated : ReposResponse
  fetched : List GoString
  world : φ

/-- The loop `for nextPage := url; nextPage != ""; ...` of `main`, run for at most `fuel`
iterations. -/
def paginate {φ : Type} (net : Net φ) (debug : Bool) (userName password : GoString) :
    Nat → GoString → ReposResponse → φ → PageRun φ
  | 0, nextPage, aggregated, w =>
    ⟨if nextPage = [] then some Exit.ok else none, aggregated, [], w⟩
  | fuel + 1, nextPage, aggregated, w =>
    if nextPage = [] then ⟨some Exit.ok, aggregated, [], w⟩
    else
      match fetchRepos net debug nextPage userName password w with
      | (w1, FetchResult.panic) => ⟨some Exit.panic, aggregated, [nextPage], w1⟩
      | (w1, FetchResult.ret _ _ (some err)) =>
        ⟨some (Exit.fatal err), aggregated, [nextPage], w1⟩
      | (w1, FetchResult.ret next response none) =>
        let r := paginate net debug userName password fuel next (aggregated ++ response) w1
        ⟨r.exit, r.aggregated, nextPage :: r.fetched, r.world⟩

/-- The listing URL
`fmt.Sprintf("https://api.github.com/orgs/%s/repos?per_page=200&type=all", githubOrgName)`. -/
def listingUrl (githubOrgName : GoString) : GoString :=
  "https://api.github.com/orgs/".toList ++ githubOrgName ++ "/repos?per_page=200&type=all".toList

/-- The result of `main`: how the process ended (`none` when the pagination loop is still
running after `fuel` iterations), the URLs fetched, the argument of `processResponse` if
it was called, the calls of `execGitCommand`, the final state. -/
structure MainRun (φ : Type) where
  exit : Option Exit
  fetched : List GoString
  processed : Option ReposResponse
  calls : List GitCall
  final : Proc φ

/-- The function `main`, flags already parsed. -/
def main {φ : Type} (os : OS φ) (net : Net φ) (fuel : Nat) (f : Flags) (s : Proc φ) :
    MainRun φ :=
  if f.rootPath = [] then
    ⟨some (Exit.fatal "rootPath must be specified".toList), [], none, [], s⟩
  else if f.userName = [] then
    ⟨some (Exit.fatal "username must be specified".toList), [], none, [], s⟩
  else if f.password = [] then
    ⟨some (Exit.fatal "password must be specified".toList), [], none, [], s⟩
  else if f.githubOrgName = [] then
    ⟨some (Exit.fatal "Github orgname must be specified".toList), [], none, [], s⟩
  else
    let p := paginate net f.debug f.userName f.password fuel (listingUrl f.githubOrgName) []
      s.world
    match p.exit with
    | some Exit.ok =>
      let r := processResponse os p.aggregated f.githubOrgName f.rootPath ⟨s.cwd, p.world⟩
      ⟨some r.exit, p.fetched, some p.aggregated, r.calls, r.final⟩
    | x => ⟨x, p.fetched, none, [], ⟨s.cwd, p.world⟩⟩

/-- Successive successful calls of `fetchRepos`, each after the first on the cursor the
one before returned: started in world `w` on the URL `u`, they return the listed pages
(each with the URL it was fetched from) and leave the world `w2` and the cursor `u2`. -/
inductive Fetches {φ : Type} (net : Net φ) (debug : Bool) (userName password : GoString) :
    φ → GoString → List (GoString × ReposResponse) → φ → GoString → Prop where
  | done (w : φ) (u : GoString) : Fetches net debug userName password w u [] w u
  | step {w w1 w2 : φ} {u next u2 : GoString} {resp : ReposResponse}
      {rest : List (GoString × ReposResponse)} :
      u ≠ [] →
      fetchRepos net debug u userName password w = (w1, FetchResult.ret next resp none) →
      Fetches net debug userName password w1 next rest w2 u2 →
      Fetches net debug userName password w u ((u, resp) :: rest) w2 u2

/-! ## A small concrete world, used to run the program on examples -/

/-- A small file system: the paths that exist, each with whether it is a directory. -/
abbrev DemoFS := List (GoString × Bool)

/-- The call `os.Stat` on the small file system. -/
def demoStat (s : Proc DemoFS) (path : GoString) : StatResult :=
  match s.world.lookup path with
  | none => StatResult.error
  | some true => StatResult.dir
  | some false => StatResult.notDir

/-- An operating system over the small file system in which `git clone` succeeds, any
other `git` command exits non-zero, and the file system is left as it is. -/
def demoOS : OS DemoFS where
  pathSeparator := '/'
  getwdErr := fun _ => none
  chdirErr := fun _ _ => none
  spawnGit := fun s args =>
    (s.world, ⟨none, [], if args.head? = some "clone".toList then none
      else some "exit status 1".toList⟩)
  stat := demoStat

/-- A descriptor holding only the given clone URL. -/
def descriptorOf (gitUrl : GoString) : Descriptor := [(cloneUrlKey, JsonValue.str gitUrl)]

/-- An operating system in which reading the output of `git` fails. -/
def readFailOS : OS DemoFS where
  pathSeparator := '/'
  getwdErr := fun _ => none
  chdirErr := fun _ _ => none
  spawnGit := fun s _ => (s.world, ⟨some "read |0: input/output error".toList, [], none⟩)
  stat := demoStat

def myRepoUrl : GoString := "https://host/org/my-repo.git".toList
def widgetsUrl : GoString := "https://example.com/acme/widgets.git".toList
def demoRoot : GoString := "/srv/checkouts".toList
def demoHome : GoString := "/home/op".toList
def demoFlags : Flags := ⟨false, demoRoot, "op".toList, "secret".toList, "acme".toList⟩
def pageTwoUrl : GoString := "https://api.github.com/organizations/1/repos?page=2".toList

/-- The `Link` entry of the form `<U>; rel="next"`. -/
def nextEntry (U : GoString) : GoString := ltSign ++ U ++ gtSign ++ "; ".toList ++ relNext

/-- A listing of two pages: 200 descriptors and a next cursor, then 3 descriptors and no
cursor. -/
def twoPageNet {φ : Type} : Net φ := fun w url _ _ =>
  if url = listingUrl "acme".toList then
    (w, Transport.resp ⟨200, "200 OK".toList, [nextEntry pageTwoUrl], none,
      List.replicate 200 (descriptorOf widgetsUrl), none⟩)
  else
    (w, Transport.resp ⟨200, "200 OK".toList, [], none,
      List.replicate 3 (descriptorOf myRepoUrl), none⟩)

/-- A listing whose second page is answered with status 500. -/
def brokenSecondPageNet {φ : Type} : Net φ := fun w url _ _ =>
  if url = listingUrl "acme".toList then
    (w, Transport.resp ⟨200, "200 OK".toList, [nextEntry pageTwoUrl], none,
      [descriptorOf widgetsUrl], none⟩)
  else
    (w, Transport.resp ⟨500, "500 Internal Server Error".toList, [], none, [], none⟩)

/-- A listing whose only page carries the `Link` entry `rel="next"` without a URL in
angle brackets. -/
def bareNextNet {φ : Type} : Net φ := fun w _ _ _ =>
  (w, Transport.resp ⟨200, "200 OK".toList, [relNext], none, [descriptorOf widgetsUrl], none⟩)

/-! ## Vocabulary of the statements -/

/-- The descriptor carries a clone URL (a string) that ends in `.git` and contains `/`. -/
def WellFormed (e : Descriptor) : Prop :=
  match cloneUrl e with
  | none => False
  | some u => stringsHasSuffix u dotGit = true ∧ '/' ∈ u

instance (e : Descriptor) : Decidable (WellFormed e) := by
  unfold WellFormed
  split <;> infer_instance

/-- The local path derived from the descriptor's clone URL exists in state `s` and is not
a directory. -/
def Obstructed {φ : Type} (os : OS φ) (rootPath : GoString) (e : Descriptor) (s : Proc φ) :
    Prop :=
  match cloneUrl e with
  | none => False
  | some u =>
    match dirNameAt u (stringsLastIndex u slash) with
    | none => False
    | some d => os.stat s (dirPathOf os rootPath d) = StatResult.notDir

instance {φ : Type} (os : OS φ) (rootPath : GoString) (e : Descriptor) (s : Proc φ) :
    Decidable (Obstructed os rootPath e s) := by
  unfold Obstructed
  split
  · infer_instance
  · split <;> infer_instance

/-- The `Link` entry contains `rel="next"`, a `<` and a `>`. -/
def NextWithBrackets (p : GoString) : Prop :=
  relNext <:+: p ∧ '<' ∈ p ∧ '>' ∈ p

instance (p : GoString) : Decidable (NextWithBrackets p) := by
  unfold NextWithBrackets
  infer_instance

/-- The call is `clone <gitUrl>` in `rootPath`, or `pull origin` in the local path derived
from `gitUrl`. -/
def CloneOrPull {φ : Type} (os : OS φ) (rootPath : GoString) (c : GitCall) : Prop :=
  (c.dirPath = rootPath ∧ c.args = ["clone".toList, c.gitUrl]) ∨
  (∃ d, dirNameAt c.gitUrl (stringsLastIndex c.gitUrl slash) = some d ∧
    c.dirPath = dirPathOf os rootPath d ∧ c.args = ["pull".toList, "origin".toList])

section StringLemmas

theorem lastIndexAux_single_none (c : Char) (s : GoString) (h : c ∉ s) :
    lastIndexAux [c] s = none := by
  induction s with
  | nil => simp [lastIndexAux, List.isPrefixOf]
  | cons x xs ih =>
    simp only [List.mem_cons, not_or] at h
    simp [lastIndexAux, ih h.2, List.isPrefixOf, h.1]

theorem lastIndexAux_single (c : Char) (a b : GoString) (h : c ∉ b) :
    lastIndexAux [c] (a ++ c :: b) = some a.length := by
  induction a with
  | nil => simp [lastIndexAux, lastIndexAux_single_none c b h, List.isPrefixOf]
  | cons x xs ih => simp [lastIndexAux, ih]

theorem indexAux_single_none (c : Char) (s : GoString) (h : c ∉ s) :
    indexAux [c] s = none := by
  induction s with
  | nil => simp [indexAux, List.isPrefixOf]
  | cons x xs ih =>
    simp only [List.mem_cons, not_or] at h
    simp [indexAux, ih h.2, List.isPrefixOf, h.1]

theorem indexAux_single (c : Char) (a b : GoString) (h : c ∉ a) :
    indexAux [c] (a ++ c :: b) = some a.length := by
  induction a with
  | nil => simp [indexAux, List.isPrefixOf]
  | cons x xs ih =>
    simp only [List.mem_cons, not_or] at h
    simp [indexAux, ih h.2, List.isPrefixOf, h.1]

theorem indexAux_single_mem (c : Char) (s : GoString) (i : Nat) (h : indexAux [c] s = some i) :
    ∃ a b, s = a ++ c :: b ∧ c ∉ a ∧ a.length = i := by
  by_cases hc : c ∈ s
  · obtain ⟨a, b, rfl, ha⟩ := List.eq_append_cons_of_mem hc
    rw [indexAux_single c a b ha] at h
    exact ⟨a, b, rfl, ha, by simpa using h⟩
  · rw [indexAux_single_none c s hc] at h
    cases h

theorem indexAux_isSome_iff (sep s : GoString) :
    (indexAux sep s).isSome = true ↔ ∃ a b, s = a ++ sep ++ b := by
  induction s with
  | nil =>
    cases sep with
    | nil => simp [indexAux, List.isPrefixOf]
    | cons y ys => simp [indexAux, List.isPrefixOf]
  | cons x xs ih =>
    by_cases hp : sep.isPrefixOf (x :: xs) = true
    · simp only [indexAux, hp, if_true, Option.isSome_some, true_iff]
      obtain ⟨t, ht⟩ := List.isPrefixOf_iff_prefix.mp hp
      exact ⟨[], t, by simpa using ht.symm⟩
    · have hp2 : sep.isPrefixOf (x :: xs) = false := Bool.eq_false_iff.mpr hp
      simp only [indexAux, hp2, Bool.false_eq_true, if_false, Option.isSome_map']
      rw [ih]
      constructor
      · rintro ⟨a, b, rfl⟩
        exact ⟨x :: a, b, by simp⟩
      · rintro ⟨a, b, hab⟩
        cases a with
        | nil =>
          exfalso
          apply hp
          apply List.isPrefixOf_iff_prefix.mpr
          exact ⟨b, by simpa using hab.symm⟩
        | cons y ys =>
          simp only [List.cons_append, List.cons.injEq] at hab
          exact ⟨ys, b, by simpa using hab.2⟩

theorem stringsHasSuffix_iff (s suffix : GoString) :
    stringsHasSuffix s suffix = true ↔ ∃ t, s = t ++ suffix := by
  unfold stringsHasSuffix
  constructor
  · intro h
    simp only [Bool.and_eq_true, decide_eq_true_eq, beq_iff_eq] at h
    refine ⟨s.take (s.length - suffix.length), ?_⟩
    conv_lhs => rw [← List.take_append_drop (s.length - suffix.length) s]
    rw [h.2]
  · rintro ⟨t, rfl⟩
    simp

theorem goSlice_mid (a m b : GoString) :
    goSlice (a ++ m ++ b) (a.length : Int) ((a.length : Int) + m.length) = some m := by
  unfold goSlice
  have h : (0 : Int) ≤ a.length ∧ (a.length : Int) ≤ (a.length : Int) + m.length ∧
      (a.length : Int) + m.length ≤ ((a ++ m ++ b).length : Int) := by
    refine ⟨by omega, by omega, ?_⟩
    simp only [List.length_append]
    push_cast
    omega
  rw [if_pos h]
  have h2 : ((a.length : Int) + m.length).toNat - (a.length : Int).toNat = m.length := by omega
  rw [h2]
  simp [List.append_assoc]

end StringLemmas

section UrlLemmas

theorem slash_not_mem_dotGit : '/' ∉ dotGit := by decide

theorem wellFormed_split (u : GoString) (h1 : stringsHasSuffix u dotGit = true)
    (h2 : '/' ∈ u) : ∃ pre name, u = pre ++ slash ++ name ++ dotGit ∧ '/' ∉ name := by
  obtain ⟨t, rfl⟩ := (stringsHasSuffix_iff u dotGit).mp h1
  have ht : '/' ∈ t := by
    rcases List.mem_append.mp h2 with h | h
    · exact h
    · exact absurd h slash_not_mem_dotGit
  have hr : '/' ∈ t.reverse := List.mem_reverse.mpr ht
  obtain ⟨a, b, hab, ha⟩ := List.eq_append_cons_of_mem hr
  refine ⟨b.reverse, a.reverse, ?_, by simpa using ha⟩
  have : t = b.reverse ++ '/' :: a.reverse := by
    have := congrArg List.reverse hab
    simpa using this
  rw [this]
  simp [slash]

theorem lastIndex_of_split (pre name : GoString) (h : '/' ∉ name) :
    stringsLastIndex (pre ++ slash ++ name ++ dotGit) slash = (pre.length : Int) := by
  have hn : '/' ∉ name ++ dotGit := by
    intro hm
    rcases List.mem_append.mp hm with h' | h'
    · exact h h'
    · exact slash_not_mem_dotGit h'
  have e : pre ++ slash ++ name ++ dotGit = pre ++ '/' :: (name ++ dotGit) := by
    simp [slash]
  have hs : slash = ['/'] := rfl
  unfold stringsLastIndex
  rw [e, hs, lastIndexAux_single '/' pre (name ++ dotGit) hn]

theorem dirNameAt_of_split (pre name : GoString) :
    dirNameAt (pre ++ slash ++ name ++ dotGit) (pre.length : Int) = some name := by
  unfold dirNameAt
  have h := goSlice_mid (pre ++ slash) name dotGit
  have hl : ((pre ++ slash).length : Int) = (pre.length : Int) + 1 := by
    simp [slash]
  have hd : (dotGit.length : Int) = 4 := by decide
  have hlen : (((pre ++ slash ++ name ++ dotGit).length : Int)) - 4
      = ((pre ++ slash).length : Int) + name.length := by
    simp only [List.length_append]
    push_cast
    omega
  rw [hlen, ← hl]
  exact h

/-- The loop body on a descriptor whose clone URL is `pre/name.git`. -/
theorem processResponseBody_of_split {φ : Type} (os : OS φ) (total : Nat)
    (rootPath : GoString) (index : Nat) (e : Descriptor) (s : Proc φ) (pre name : GoString)
    (hu : cloneUrl e = some (pre ++ slash ++ name ++ dotGit)) (hn : '/' ∉ name) :
    processResponseBody os total rootPath index e s =
      match os.stat s (rootPath ++ [os.pathSeparator] ++ name) with
      | StatResult.error =>
        Iter.next ⟨index, total, rootPath, pre ++ slash ++ name ++ dotGit,
            ["clone".toList, pre ++ slash ++ name ++ dotGit]⟩
          (execGitCommand os index total rootPath (pre ++ slash ++ name ++ dotGit)
            ["clone".toList, pre ++ slash ++ name ++ dotGit] s).2
          (execGitCommand os index total rootPath (pre ++ slash ++ name ++ dotGit)
            ["clone".toList, pre ++ slash ++ name ++ dotGit] s).1
      | StatResult.dir =>
        Iter.next ⟨index, total, rootPath ++ [os.pathSeparator] ++ name,
            pre ++ slash ++ name ++ dotGit, ["pull".toList, "origin".toList]⟩
          (execGitCommand os index total (rootPath ++ [os.pathSeparator] ++ name)
            (pre ++ slash ++ name ++ dotGit) ["pull".toList, "origin".toList] s).2
          (execGitCommand os index total (rootPath ++ [os.pathSeparator] ++ name)
            (pre ++ slash ++ name ++ dotGit) ["pull".toList, "origin".toList] s).1
      | StatResult.notDir => Iter.abort (Exit.fatal "Expected directory".toList) := by
  have hs : stringsHasSuffix (pre ++ slash ++ name ++ dotGit) dotGit = true :=
    (stringsHasSuffix_iff _ _).mpr ⟨_, rfl⟩
  have hi := lastIndex_of_split pre name hn
  have hd := dirNameAt_of_split pre name
  have hne : ¬ ((pre.length : Int) = -1) := by omega
  unfold processResponseBody
  simp only [hu, hs, hi, hd, hne, not_true_eq_false, if_false, dirPathOf]

end UrlLemmas

/-- C1: for a clone URL that ends in `.git` and contains a `/`, the URL is
`pre ++ "/" ++ name ++ ".git"` with no `/` in `name`; for every such reading the last
index of `/` is the length of `pre`, the bounds of the slice `gitUrl[i+1 : len(gitUrl)-4]`
are valid (`0 <= i+1 <= len-4 <= len`), the slice is `name`, and the loop body of
`processResponse` examines and uses the path `rootPath ++ separator ++ name`. -/
theorem C1_dirName_between_last_slash_and_dotGit {φ : Type} (os : OS φ) (total index : Nat)
    (rootPath gitUrl : GoString) (e : Descriptor) (s : Proc φ)
    (hu : cloneUrl e = some gitUrl)
    (h1 : stringsHasSuffix gitUrl dotGit = true) (h2 : '/' ∈ gitUrl) :
    (∃ pre name, gitUrl = pre ++ slash ++ name ++ dotGit ∧ '/' ∉ name) ∧
    ∀ pre name, gitUrl = pre ++ slash ++ name ++ dotGit → '/' ∉ name →
      stringsLastIndex gitUrl slash = (pre.length : Int) ∧
      (0 ≤ stringsLastIndex gitUrl slash + 1 ∧
        stringsLastIndex gitUrl slash + 1 ≤ (gitUrl.length : Int) - 4 ∧
        (gitUrl.length : Int) - 4 ≤ (gitUrl.length : Int)) ∧
      dirNameAt gitUrl (stringsLastIndex gitUrl slash) = some name ∧
      processResponseBody os total rootPath index e s =
        match os.stat s (rootPath ++ [os.pathSeparator] ++ name) with
        | StatResult.error =>
          Iter.next ⟨index, total, rootPath, gitUrl, ["clone".toList, gitUrl]⟩
            (execGitCommand os index total rootPath gitUrl ["clone".toList, gitUrl] s).2
            (execGitCommand os index total rootPath gitUrl ["clone".toList, gitUrl] s).1
        | StatResult.dir =>
          Iter.next ⟨index, total, rootPath ++ [os.pathSeparator] ++ name, gitUrl,
              ["pull".toList, "origin".toList]⟩
            (execGitCommand os index total (rootPath ++ [os.pathSeparator] ++ name) gitUrl
              ["pull".toList, "origin".toList] s).2
            (execGitCommand os index total (rootPath ++ [os.pathSeparator] ++ name) gitUrl
              ["pull".toList, "origin".toList] s).1
        | StatResult.notDir => Iter.abort (Exit.fatal "Expected directory".toList) := by
  refine ⟨wellFormed_split gitUrl h1 h2, ?_⟩
  intro pre name hsplit hn
  subst hsplit
  have hi := lastIndex_of_split pre name hn
  refine ⟨hi, ?_, ?_, processResponseBody_of_split os total rootPath index e s pre name hu hn⟩
  · rw [hi]
    simp only [List.length_append]
    have hd : dotGit.length = 4 := by decide
    have hsl : slash.length = 1 := by decide
    rw [hd, hsl]
    push_cast
    omega
  · rw [hi]
    exact dirNameAt_of_split pre name

/-- C1 at `https://host/org/my-repo.git`: the derived directory name is `my-repo`. -/
theorem C1_witness_my_repo :
    ((∃ pre name, myRepoUrl = pre ++ slash ++ name ++ dotGit ∧ '/' ∉ name) ∧
      dirNameAt myRepoUrl (stringsLastIndex myRepoUrl slash) = some "my-repo".toList) ∧
    stringsHasSuffix myRepoUrl dotGit = true ∧ '/' ∈ myRepoUrl := by
  have h := C1_dirName_between_last_slash_and_dotGit demoOS 1 0 demoRoot myRepoUrl
    (descriptorOf myRepoUrl) ⟨demoHome, []⟩ (by decide) (by decide) (by decide)
  exact ⟨⟨h.1, (h.2 "https://host/org".toList "my-repo".toList (by decide) (by decide)).2.2.1⟩,
    by decide, by decide⟩

section ProcessLemmas

variable {φ : Type}

theorem processFrom_nil (os : OS φ) (total : Nat) (rootPath : GoString) (i : Nat)
    (s : Proc φ) : processFrom os total rootPath i [] s = ⟨Exit.ok, [], s⟩ := rfl

theorem processFrom_cons_next (os : OS φ) (total : Nat) (rootPath : GoString) (i : Nat)
    (e : Descriptor) (rest : ReposResponse) (s s1 : Proc φ) (call : GitCall)
    (err : Option GoError)
    (h : processResponseBody os total rootPath i e s = Iter.next call err s1) :
    processFrom os total rootPath i (e :: rest) s =
      ⟨(processFrom os total rootPath (i + 1) rest s1).exit,
        call :: (processFrom os total rootPath (i + 1) rest s1).calls,
        (processFrom os total rootPath (i + 1) rest s1).final⟩ := by
  simp only [processFrom, h]

theorem processFrom_cons_abort (os : OS φ) (total : Nat) (rootPath : GoString) (i : Nat)
    (e : Descriptor) (rest : ReposResponse) (s : Proc φ) (x : Exit)
    (h : processResponseBody os total rootPath i e s = Iter.abort x) :
    processFrom os total rootPath i (e :: rest) s = ⟨x, [], s⟩ := by
  simp only [processFrom, h]

/-- A well-formed descriptor whose local path is not obstructed gives one call, a clone
or a pull, and the loop goes on. -/
theorem processResponseBody_good (os : OS φ) (total : Nat) (rootPath : GoString) (i : Nat)
    (e : Descriptor) (s : Proc φ) (hw : WellFormed e) (ho : ¬ Obstructed os rootPath e s) :
    ∃ call err s1, processResponseBody os total rootPath i e s = Iter.next call err s1 ∧
      call.index = i ∧ call.total = total ∧ cloneUrl e = some call.gitUrl ∧
      CloneOrPull os rootPath call := by
  unfold WellFormed at hw
  cases hu : cloneUrl e with
  | none => simp [hu] at hw
  | some u =>
    simp only [hu] at hw
    obtain ⟨pre, name, rfl, hn⟩ := wellFormed_split u hw.1 hw.2
    have hb := processResponseBody_of_split os total rootPath i e s pre name hu hn
    have hi := lastIndex_of_split pre name hn
    have hd := dirNameAt_of_split pre name
    have hnd : os.stat s (rootPath ++ [os.pathSeparator] ++ name) ≠ StatResult.notDir := by
      intro hs
      apply ho
      unfold Obstructed
      simp only [hu, hi, hd, dirPathOf]
      exact hs
    cases hst : os.stat s (rootPath ++ [os.pathSeparator] ++ name) with
    | error =>
      rw [hst] at hb
      exact ⟨_, _, _, hb, rfl, rfl, rfl, Or.inl ⟨rfl, rfl⟩⟩
    | dir =>
      rw [hst] at hb
      refine ⟨_, _, _, hb, rfl, rfl, rfl, Or.inr ⟨name, ?_, rfl, rfl⟩⟩
      show dirNameAt (pre ++ slash ++ name ++ dotGit)
        (stringsLastIndex (pre ++ slash ++ name ++ dotGit) slash) = some name
      rw [hi]
      exact hd
    | notDir => exact absurd hst hnd

/-- The loop over well-formed descriptors, none obstructed when it is reached: it ends
normally with one call per descriptor, in order. -/
theorem processFrom_good (os : OS φ) (total : Nat) (rootPath : GoString) :
    ∀ (l : ReposResponse) (i : Nat) (s : Proc φ),
      (∀ e ∈ l, WellFormed e) →
      (∀ j (hj : j < l.length),
        ¬ Obstructed os rootPath l[j] (processFrom os total rootPath i (l.take j) s).final) →
      (processFrom os total rootPath i l s).exit = Exit.ok ∧
      List.Forall₂ (fun e c => cloneUrl e = some c.gitUrl ∧ c.total = total ∧
          CloneOrPull os rootPath c) l (processFrom os total rootPath i l s).calls ∧
      (processFrom os total rootPath i l s).calls.map GitCall.index = List.range' i l.length
  | [], i, s, _, _ => by
    simp [processFrom]
  | e :: rest, i, s, hw, ho => by
    have ho0 : ¬ Obstructed os rootPath e s := by
      have := ho 0 (by simp)
      simpa [processFrom] using this
    obtain ⟨call, err, s1, hb, hci, hct, hcu, hcp⟩ :=
      processResponseBody_good os total rootPath i e s (hw e (List.mem_cons_self _ _)) ho0
    have hrest : ∀ j (hj : j < rest.length),
        ¬ Obstructed os rootPath rest[j]
          (processFrom os total rootPath (i + 1) (rest.take j) s1).final := by
      intro j hj
      have := ho (j + 1) (by simpa using hj)
      simpa [processFrom_cons_next os total rootPath i e (rest.take j) s s1 call err hb]
        using this
    obtain ⟨h1, h2, h3⟩ := processFrom_good os total rootPath rest (i + 1) s1
      (fun e' he' => hw e' (List.mem_cons_of_mem _ he')) hrest
    rw [processFrom_cons_next os total rootPath i e rest s s1 call err hb]
    refine ⟨h1, List.Forall₂.cons ⟨hcu, hct, hcp⟩ h2, ?_⟩
    simp [h3, hci, List.range']

/-- The loop body never stops the loop with a normal exit. -/
theorem processResponseBody_abort_ne_ok (os : OS φ) (total : Nat) (rootPath : GoString)
    (i : Nat) (e : Descriptor) (s : Proc φ) :
    processResponseBody os total rootPath i e s ≠ Iter.abort Exit.ok := by
  unfold processResponseBody
  intro h
  split at h
  · cases h
  · split at h
    · cases h
    · simp only at h
      split at h
      · cases h
      · split at h
        · cases h
        · split at h <;> cases h

/-- Once a first part of the list has been processed normally, the loop goes on with the
rest from the state reached. -/
theorem processFrom_append (os : OS φ) (total : Nat) (rootPath : GoString) :
    ∀ (l rest : ReposResponse) (i : Nat) (s : Proc φ),
      (processFrom os total rootPath i l s).exit = Exit.ok →
      processFrom os total rootPath i (l ++ rest) s =
        ⟨(processFrom os total rootPath (i + l.length) rest
            (processFrom os total rootPath i l s).final).exit,
          (processFrom os total rootPath i l s).calls ++
            (processFrom os total rootPath (i + l.length) rest
              (processFrom os total rootPath i l s).final).calls,
          (processFrom os total rootPath (i + l.length) rest
            (processFrom os total rootPath i l s).final).final⟩
  | [], rest, i, s, _ => by
    simp [processFrom]
  | e :: l, rest, i, s, h => by
    cases hb : processResponseBody os total rootPath i e s with
    | abort x =>
      rw [processFrom_cons_abort os total rootPath i e l s x hb] at h
      simp only at h
      subst h
      exact absurd hb (processResponseBody_abort_ne_ok os total rootPath i e s)
    | next call err s1 =>
      rw [processFrom_cons_next os total rootPath i e l s s1 call err hb] at h
      simp only at h
      have ih := processFrom_append os total rootPath l rest (i + 1) s1 h
      rw [List.cons_append,
        processFrom_cons_next os total rootPath i e (l ++ rest) s s1 call err hb,
        processFrom_cons_next os total rootPath i e l s s1 call err hb, ih]
      simp only [List.length_cons, List.cons_append]
      have : i + 1 + l.length = i + (l.length + 1) := by omega
      rw [this]

end ProcessLemmas

/-- C3: for a descriptor whose clone URL ends in `.git` and contains a `/`, the local path
is derived, and: if `os.Stat` of it fails (the path does not exist) the loop body makes
exactly one call, `clone <clone URL>` with working directory `rootPath`; if it is a
directory the loop body makes exactly one call, `pull origin` with working directory the
local path.  In both cases `processResponse` on the list holding just this descriptor
makes that call and no other. -/
theorem C3_clone_if_absent_pull_if_directory {φ : Type} (os : OS φ) (total index : Nat)
    (rootPath gitUrl org : GoString) (e : Descriptor) (s : Proc φ)
    (hu : cloneUrl e = some gitUrl)
    (h1 : stringsHasSuffix gitUrl dotGit = true) (h2 : '/' ∈ gitUrl) :
    ∃ dirName, dirNameAt gitUrl (stringsLastIndex gitUrl slash) = some dirName ∧
      (os.stat s (dirPathOf os rootPath dirName) = StatResult.error →
        (∃ err s1, processResponseBody os total rootPath index e s =
          Iter.next ⟨index, total, rootPath, gitUrl, ["clone".toList, gitUrl]⟩ err s1) ∧
        (processResponse os [e] org rootPath s).calls =
          [⟨0, 1, rootPath, gitUrl, ["clone".toList, gitUrl]⟩]) ∧
      (os.stat s (dirPathOf os rootPath dirName) = StatResult.dir →
        (∃ err s1, processResponseBody os total rootPath index e s =
          Iter.next ⟨index, total, dirPathOf os rootPath dirName, gitUrl,
            ["pull".toList, "origin".toList]⟩ err s1) ∧
        (processResponse os [e] org rootPath s).calls =
          [⟨0, 1, dirPathOf os rootPath dirName, gitUrl,
            ["pull".toList, "origin".toList]⟩]) := by
  obtain ⟨pre, name, rfl, hn⟩ := wellFormed_split gitUrl h1 h2
  refine ⟨name, ?_, ?_, ?_⟩
  · rw [lastIndex_of_split pre name hn]
    exact dirNameAt_of_split pre name
  · intro hst
    have hb := fun t i => processResponseBody_of_split os t rootPath i e s pre name hu hn
    simp only [dirPathOf] at hst
    simp only [hst] at hb
    refine ⟨⟨_, _, hb total index⟩, ?_⟩
    simp [processResponse, processFrom, hb 1 0]
  · intro hst
    have hb := fun t i => processResponseBody_of_split os t rootPath i e s pre name hu hn
    simp only [dirPathOf] at hst
    simp only [hst] at hb
    refine ⟨⟨_, _, hb total index⟩, ?_⟩
    simp [processResponse, processFrom, hb 1 0, dirPathOf]

/-- C3 at `https://example.com/acme/widgets.git` with nothing under the root: the run
makes the single call `clone https://example.com/acme/widgets.git` in the root. -/
theorem C3_witness_widgets :
    (processResponse demoOS [descriptorOf widgetsUrl] [] demoRoot ⟨demoHome, []⟩).calls =
      [⟨0, 1, demoRoot, widgetsUrl, ["clone".toList, widgetsUrl]⟩] := by
  obtain ⟨d, _, hclone, _⟩ := C3_clone_if_absent_pull_if_directory demoOS 1 0 demoRoot
    widgetsUrl [] (descriptorOf widgetsUrl) ⟨demoHome, []⟩ (by decide) (by decide) (by decide)
  exact (hclone rfl).2

/-- C4: for a list of descriptors with well-formed clone URLs, none of which finds its
local path obstructed by a non-directory when the loop reaches it, and whatever the git
invocations do (succeed or fail), `processResponse` returns nil and makes exactly one
call per descriptor, in list order: call `j` has index `j`, carries the clone URL of
descriptor `j`, and is a clone in the root or a pull in the local path. -/
theorem C4_failure_does_not_stop_the_batch {φ : Type} (os : OS φ) (response : ReposResponse)
    (org rootPath : GoString) (s : Proc φ)
    (hw : ∀ e ∈ response, WellFormed e)
    (ho : ∀ j (hj : j < response.length),
      ¬ Obstructed os rootPath response[j]
        (processFrom os response.length rootPath 0 (response.take j) s).final) :
    (processResponse os response org rootPath s).exit = Exit.ok ∧
    (processResponse os response org rootPath s).calls.length = response.length ∧
    List.Forall₂ (fun e c => cloneUrl e = some c.gitUrl ∧ c.total = response.length ∧
        CloneOrPull os rootPath c) response (processResponse os response org rootPath s).calls ∧
    (processResponse os response org rootPath s).calls.map GitCall.index =
      List.range response.length := by
  obtain ⟨h1, h2, h3⟩ := processFrom_good os response.length rootPath response 0 s hw ho
  refine ⟨h1, h2.length_eq.symm, h2, ?_⟩
  rw [List.range_eq_range']
  exact h3

/-- C4 on two repositories: the pull for the first one fails, the second one is still
cloned, and the run returns nil. -/
theorem C4_witness_failed_pull_then_clone :
    (processResponse demoOS [descriptorOf widgetsUrl, descriptorOf myRepoUrl] [] demoRoot
        ⟨demoHome, [("/srv/checkouts/widgets".toList, true)]⟩).exit = Exit.ok ∧
    (processResponse demoOS [descriptorOf widgetsUrl, descriptorOf myRepoUrl] [] demoRoot
        ⟨demoHome, [("/srv/checkouts/widgets".toList, true)]⟩).calls.length = 2 ∧
    (execGitCommand demoOS 0 2 "/srv/checkouts/widgets".toList widgetsUrl
        ["pull".toList, "origin".toList]
        ⟨demoHome, [("/srv/checkouts/widgets".toList, true)]⟩).2 ≠ none := by
  have h := C4_failure_does_not_stop_the_batch demoOS
    [descriptorOf widgetsUrl, descriptorOf myRepoUrl] [] demoRoot
    ⟨demoHome, [("/srv/checkouts/widgets".toList, true)]⟩ (by decide) (by decide)
  exact ⟨h.1, h.2.1, by decide⟩

/-- C6: let the descriptors before position `k` be well-formed and unobstructed when the
loop reaches them, and let descriptor `k` carry a clone URL that does not end in `.git`,
or contains no `/`, or whose local path exists and is not a directory when the loop
reaches it.  Then `processResponse` ends fatally, the calls it made are exactly those
for the `k` earlier descriptors (each has an index below `k`), and the state is the
one in which descriptor `k` was reached: nothing is invoked for `k` or later. -/
theorem C6_first_malformed_or_obstructed_is_fatal {φ : Type} (os : OS φ)
    (pre post : ReposResponse) (e : Descriptor) (org rootPath u : GoString) (s : Proc φ)
    (hw : ∀ x ∈ pre, WellFormed x)
    (ho : ∀ j (hj : j < pre.length),
      ¬ Obstructed os rootPath pre[j]
        (processFrom os (pre ++ e :: post).length rootPath 0 (pre.take j) s).final)
    (hu : cloneUrl e = some u)
    (hbad : stringsHasSuffix u dotGit = false ∨ '/' ∉ u ∨
      Obstructed os rootPath e
        (processFrom os (pre ++ e :: post).length rootPath 0 pre s).final) :
    (∃ msg, (processResponse os (pre ++ e :: post) org rootPath s).exit = Exit.fatal msg) ∧
    (processResponse os (pre ++ e :: post) org rootPath s).calls.length = pre.length ∧
    (∀ c ∈ (processResponse os (pre ++ e :: post) org rootPath s).calls,
      c.index < pre.length) ∧
    (processResponse os (pre ++ e :: post) org rootPath s).calls =
      (processFrom os (pre ++ e :: post).length rootPath 0 pre s).calls ∧
    (processResponse os (pre ++ e :: post) org rootPath s).final =
      (processFrom os (pre ++ e :: post).length rootPath 0 pre s).final := by
  obtain ⟨h1, h2, h3⟩ :=
    processFrom_good os (pre ++ e :: post).length rootPath pre 0 s hw ho
  have happ := processFrom_append os (pre ++ e :: post).length rootPath pre (e :: post) 0 s h1
  have hbody : ∃ msg, processResponseBody os (pre ++ e :: post).length rootPath
      (0 + pre.length) e (processFrom os (pre ++ e :: post).length rootPath 0 pre s).final
        = Iter.abort (Exit.fatal msg) := by
    by_cases hs : stringsHasSuffix u dotGit = true
    · by_cases hm : '/' ∈ u
      · have hob : Obstructed os rootPath e
            (processFrom os (pre ++ e :: post).length rootPath 0 pre s).final := by
          rcases hbad with h | h | h
          · rw [hs] at h
            cases h
          · exact absurd hm h
          · exact h
        obtain ⟨a, name, rfl, hn⟩ := wellFormed_split u hs hm
        have hb := processResponseBody_of_split os (pre ++ e :: post).length rootPath
          (0 + pre.length) e (processFrom os (pre ++ e :: post).length rootPath 0 pre s).final
          a name hu hn
        unfold Obstructed at hob
        simp only [hu, lastIndex_of_split a name hn, dirNameAt_of_split a name,
          dirPathOf] at hob
        simp only [hob] at hb
        exact ⟨_, hb⟩
      · refine ⟨"Invalid url format...".toList, ?_⟩
        have hl : stringsLastIndex u slash = -1 := by
          unfold stringsLastIndex
          have hsl : slash = ['/'] := rfl
          rw [hsl, lastIndexAux_single_none '/' u hm]
        unfold processResponseBody
        simp only [hu, hs, hl, not_true_eq_false, if_false, if_true]
    · refine ⟨"Missing '.git' from URL..".toList, ?_⟩
      have hs2 : stringsHasSuffix u dotGit = false := Bool.eq_false_iff.mpr hs
      unfold processResponseBody
      simp only [hu, hs2, Bool.false_eq_true, not_false_eq_true, if_true]
  obtain ⟨msg, hbody⟩ := hbody
  have hk := processFrom_cons_abort os (pre ++ e :: post).length rootPath (0 + pre.length)
    e post (processFrom os (pre ++ e :: post).length rootPath 0 pre s).final _ hbody
  have hidx : ∀ c ∈ (processFrom os (pre ++ e :: post).length rootPath 0 pre s).calls,
      c.index < pre.length := by
    intro c hc
    have : c.index ∈ List.range' 0 pre.length := by
      rw [← h3]
      exact List.mem_map_of_mem _ hc
    rw [List.mem_range'_1] at this
    omega
  have hr : processResponse os (pre ++ e :: post) org rootPath s =
      ⟨Exit.fatal msg, (processFrom os (pre ++ e :: post).length rootPath 0 pre s).calls,
        (processFrom os (pre ++ e :: post).length rootPath 0 pre s).final⟩ := by
    unfold processResponse
    rw [happ, hk]
    simp
  rw [hr]
  exact ⟨⟨msg, rfl⟩, h2.length_eq.symm, hidx, rfl, rfl⟩

/-- C6 on three descriptors of which the second has a clone URL without `.git`: the run
ends fatally after the single call made for the first descriptor. -/
theorem C6_witness_missing_dotGit :
    (∃ msg, (processResponse demoOS
        [descriptorOf widgetsUrl, descriptorOf "https://host/org/plain".toList,
          descriptorOf myRepoUrl] [] demoRoot ⟨demoHome, []⟩).exit = Exit.fatal msg) ∧
    (processResponse demoOS
        [descriptorOf widgetsUrl, descriptorOf "https://host/org/plain".toList,
          descriptorOf myRepoUrl] [] demoRoot ⟨demoHome, []⟩).calls.length = 1 := by
  have h := C6_first_malformed_or_obstructed_is_fatal demoOS [descriptorOf widgetsUrl]
    [descriptorOf myRepoUrl] (descriptorOf "https://host/org/plain".toList) [] demoRoot
    "https://host/org/plain".toList ⟨demoHome, []⟩ (by decide) (by decide) (by decide)
    (Or.inl (by decide))
  exact ⟨h.1, h.2.1⟩

section CursorLemmas

theorem stringsIndex_ne_iff (p sep : GoString) :
    stringsIndex p sep ≠ -1 ↔ sep <:+: p := by
  have h := indexAux_isSome_iff sep p
  unfold stringsIndex
  cases hi : indexAux sep p with
  | none =>
    rw [hi] at h
    simp only [Option.isSome_none, Bool.false_eq_true, false_iff, not_exists] at h
    simp only [ne_eq, not_true_eq_false, false_iff]
    rintro ⟨a, b, hab⟩
    exact h a b hab.symm
  | some i =>
    rw [hi] at h
    simp only [Option.isSome_some, true_iff] at h
    obtain ⟨a, b, hab⟩ := h
    have hne : (i : Int) ≠ -1 := by omega
    simp only [ne_eq, hne, not_false_eq_true, true_iff]
    exact ⟨a, b, hab.symm⟩

theorem stringsIndex_single_not_mem (c : Char) (p : GoString) (h : c ∉ p) :
    stringsIndex p [c] = -1 := by
  unfold stringsIndex
  rw [indexAux_single_none c p h]

theorem stringsIndex_single_split (c : Char) (a b : GoString) (h : c ∉ a) :
    stringsIndex (a ++ c :: b) [c] = (a.length : Int) := by
  unfold stringsIndex
  rw [indexAux_single c a b h]

theorem stringsIndex_single_mem (c : Char) (p : GoString) (h : c ∈ p) :
    ∃ a b, p = a ++ c :: b ∧ c ∉ a ∧ stringsIndex p [c] = (a.length : Int) := by
  obtain ⟨a, b, rfl, ha⟩ := List.eq_append_cons_of_mem h
  exact ⟨a, b, rfl, ha, stringsIndex_single_split c a b ha⟩

theorem ltSign_eq : ltSign = ['<'] := rfl

theorem gtSign_eq : gtSign = ['>'] := rfl

/-- The indices of the first `<` and the first `>` of an entry that has both: they are
different positions inside the entry. -/
theorem bracket_indices (p : GoString) (hl : '<' ∈ p) (hg : '>' ∈ p) :
    ∃ s e : Nat, stringsIndex p ltSign = (s : Int) ∧ stringsIndex p gtSign = (e : Int) ∧
      s ≠ e ∧ e < p.length := by
  obtain ⟨a, b, hab, _, hs⟩ := stringsIndex_single_mem '<' p hl
  obtain ⟨a2, b2, hab2, _, he⟩ := stringsIndex_single_mem '>' p hg
  refine ⟨a.length, a2.length, hs, he, ?_, ?_⟩
  · intro hlen
    have heq : a ++ '<' :: b = a2 ++ '>' :: b2 := by rw [← hab, ← hab2]
    have := (List.append_inj heq hlen).2
    simp at this
  · rw [hab2]
    simp

theorem goSlice_isSome_iff (p : GoString) (lo hi : Int) :
    (goSlice p lo hi).isSome = true ↔ (0 ≤ lo ∧ lo ≤ hi ∧ hi ≤ (p.length : Int)) := by
  unfold goSlice
  split <;> simp_all

theorem goSlice_eq_none_iff (p : GoString) (lo hi : Int) :
    goSlice p lo hi = none ↔ ¬ (0 ≤ lo ∧ lo ≤ hi ∧ hi ≤ (p.length : Int)) := by
  unfold goSlice
  split <;> simp_all

theorem slice_in_bounds_iff (p : GoString) (hl : '<' ∈ p) (hg : '>' ∈ p) :
    (goSlice p (stringsIndex p ltSign + 1) (stringsIndex p gtSign)).isSome = true ↔
      stringsIndex p ltSign < stringsIndex p gtSign := by
  obtain ⟨s, e, hs, he, _, hlen⟩ := bracket_indices p hl hg
  rw [goSlice_isSome_iff, hs, he]
  omega

theorem cursorStep_of_not (n p : GoString) (h : ¬ NextWithBrackets p) :
    cursorStep n p = some n := by
  unfold cursorStep
  by_cases hr : stringsIndex p relNext ≠ -1
  · rw [if_pos hr]
    have hrel := (stringsIndex_ne_iff p relNext).mp hr
    by_cases hl : '<' ∈ p
    · have hg : '>' ∉ p := fun hg => h ⟨hrel, hl, hg⟩
      have := stringsIndex_single_not_mem '>' p hg
      rw [← gtSign_eq] at this
      simp [this]
    · have := stringsIndex_single_not_mem '<' p hl
      rw [← ltSign_eq] at this
      simp [this]
  · rw [if_neg hr]

theorem cursorStep_of_next (n p : GoString) (h : NextWithBrackets p) :
    cursorStep n p = goSlice p (stringsIndex p ltSign + 1) (stringsIndex p gtSign) := by
  obtain ⟨s, e, hs, he, _, _⟩ := bracket_indices p h.2.1 h.2.2
  have hr := (stringsIndex_ne_iff p relNext).mpr h.1
  unfold cursorStep
  rw [if_pos hr]
  have h2 : stringsIndex p ltSign ≠ -1 ∧ stringsIndex p gtSign ≠ -1 := by
    rw [hs, he]
    omega
  simp only [h2, ne_eq, not_false_eq_true, and_self, if_true]

theorem cursorStep_none_iff (n p : GoString) :
    cursorStep n p = none ↔
      NextWithBrackets p ∧ stringsIndex p gtSign < stringsIndex p ltSign := by
  by_cases h : NextWithBrackets p
  · rw [cursorStep_of_next n p h, goSlice_eq_none_iff]
    obtain ⟨s, e, hs, he, hne, hlen⟩ := bracket_indices p h.2.1 h.2.2
    rw [hs, he]
    constructor
    · intro hb
      exact ⟨h, by omega⟩
    · rintro ⟨_, hlt⟩
      omega
  · rw [cursorStep_of_not n p h]
    simp [h]

/-- The slice taken from an entry that reads `a ++ "<" ++ U ++ ">" ++ b`, the first `<`
and the first `>` being the ones shown. -/
theorem goSlice_brackets (a U b : GoString) (h1 : '<' ∉ a) (h2 : '>' ∉ a) (h3 : '>' ∉ U) :
    goSlice (a ++ '<' :: U ++ '>' :: b)
      (stringsIndex (a ++ '<' :: U ++ '>' :: b) ltSign + 1)
      (stringsIndex (a ++ '<' :: U ++ '>' :: b) gtSign) = some U := by
  have hs : stringsIndex (a ++ '<' :: U ++ '>' :: b) ltSign = (a.length : Int) := by
    have e1 : a ++ '<' :: U ++ '>' :: b = a ++ '<' :: (U ++ '>' :: b) := by simp
    rw [e1, ltSign_eq]
    exact stringsIndex_single_split '<' a _ h1
  have he : stringsIndex (a ++ '<' :: U ++ '>' :: b) gtSign
      = ((a ++ ['<']).length : Int) + U.length := by
    have hn : '>' ∉ a ++ '<' :: U := by
      intro hm
      rcases List.mem_append.mp hm with h | h
      · exact h2 h
      · rcases List.mem_cons.mp h with h | h
        · cases h
        · exact h3 h
    rw [gtSign_eq, stringsIndex_single_split '>' (a ++ '<' :: U) b hn]
    simp only [List.length_append, List.length_cons, List.length_nil]
    push_cast
    omega
  rw [hs, he]
  have e2 : a ++ '<' :: U ++ '>' :: b = (a ++ ['<']) ++ U ++ ('>' :: b) := by simp
  have hl : ((a ++ ['<']).length : Int) = (a.length : Int) + 1 := by simp
  rw [e2, ← hl]
  exact goSlice_mid (a ++ ['<']) U ('>' :: b)

/-- An entry whose first `<` comes before its first `>` reads `a ++ "<" ++ U ++ ">" ++ b`
with those two signs the ones shown. -/
theorem split_brackets (p : GoString) (hl : '<' ∈ p) (hg : '>' ∈ p)
    (h : stringsIndex p ltSign < stringsIndex p gtSign) :
    ∃ a U b, p = a ++ '<' :: U ++ '>' :: b ∧ '<' ∉ a ∧ '>' ∉ a ∧ '>' ∉ U := by
  obtain ⟨a, b, hab, ha, hs⟩ := stringsIndex_single_mem '<' p hl
  obtain ⟨a2, b2, hab2, ha2, he⟩ := stringsIndex_single_mem '>' p hg
  rw [ltSign_eq] at h
  rw [gtSign_eq] at h
  rw [hs, he] at h
  have hlen : a.length < a2.length := by omega
  have heq : a ++ '<' :: b = a2 ++ '>' :: b2 := by rw [← hab, ← hab2]
  rcases List.append_eq_append_iff.mp heq with ⟨c, hc1, hc2⟩ | ⟨c, hc1, hc2⟩
  · cases c with
    | nil =>
      rw [hc1] at hlen
      simp at hlen
    | cons x U =>
      simp only [List.cons_append, List.cons.injEq] at hc2
      obtain ⟨hx, _⟩ := hc2
      subst hx
      refine ⟨a, U, b2, ?_, ha, ?_, ?_⟩
      · rw [hab2, hc1]
      · intro hm
        apply ha2
        rw [hc1]
        exact List.mem_append_left _ hm
      · intro hm
        apply ha2
        rw [hc1]
        exact List.mem_append_right _ (List.mem_cons_of_mem _ hm)
  · rw [hc1] at hlen
    simp only [List.length_append] at hlen
    omega

theorem cursorLoop_none_iff (ps : List GoString) :
    ∀ n, cursorLoop n ps = none ↔
      ∃ p ∈ ps, NextWithBrackets p ∧ stringsIndex p gtSign < stringsIndex p ltSign := by
  induction ps with
  | nil =>
    intro n
    simp [cursorLoop]
  | cons p rest ih =>
    intro n
    cases hstep : cursorStep n p with
    | none =>
      have := (cursorStep_none_iff n p).mp hstep
      simp only [cursorLoop, hstep, true_iff]
      exact ⟨p, List.mem_cons_self _ _, this⟩
    | some m =>
      have hnot : ¬ (NextWithBrackets p ∧ stringsIndex p gtSign < stringsIndex p ltSign) := by
        intro hq
        have := (cursorStep_none_iff n p).mpr hq
        rw [hstep] at this
        cases this
      simp only [cursorLoop, hstep, ih m, List.mem_cons, exists_eq_or_imp, hnot, false_or]

theorem cursorLoop_of_none_next (ps : List GoString) :
    ∀ n, (∀ q ∈ ps, ¬ NextWithBrackets q) → cursorLoop n ps = some n := by
  induction ps with
  | nil =>
    intro n _
    rfl
  | cons p rest ih =>
    intro n h
    simp only [cursorLoop, cursorStep_of_not n p (h p (List.mem_cons_self _ _))]
    exact ih n (fun q hq => h q (List.mem_cons_of_mem _ hq))

theorem cursorLoop_append (front rest : List GoString) :
    ∀ n, cursorLoop n (front ++ rest) =
      (cursorLoop n front).bind (fun m => cursorLoop m rest) := by
  induction front with
  | nil =>
    intro n
    simp [cursorLoop]
  | cons p ps ih =>
    intro n
    cases hstep : cursorStep n p with
    | none => simp [cursorLoop, hstep]
    | some m => simp [cursorLoop, hstep, ih m]

/-- The loop when no slice panics: the value comes from the last entry that has
`rel="next"`, `<` and `>`. -/
theorem cursorLoop_last (n : GoString) (front back : List GoString) (p : GoString)
    (hq : NextWithBrackets p) (hback : ∀ q ∈ back, ¬ NextWithBrackets q)
    (hne : cursorLoop n (front ++ p :: back) ≠ none) :
    cursorLoop n (front ++ p :: back) =
        goSlice p (stringsIndex p ltSign + 1) (stringsIndex p gtSign) ∧
      stringsIndex p ltSign < stringsIndex p gtSign := by
  have hno := (not_congr (cursorLoop_none_iff (front ++ p :: back) n)).mp hne
  have hp : ¬ stringsIndex p gtSign < stringsIndex p ltSign := by
    intro hlt
    exact hno ⟨p, by simp, hq, hlt⟩
  obtain ⟨s, e, hs, he, hse, _⟩ := bracket_indices p hq.2.1 hq.2.2
  have hlt : stringsIndex p ltSign < stringsIndex p gtSign := by
    rw [hs, he] at hp ⊢
    omega
  refine ⟨?_, hlt⟩
  have hfront : cursorLoop n front ≠ none := by
    intro hf
    apply hne
    rw [cursorLoop_append, hf]
    rfl
  obtain ⟨m, hm⟩ := Option.ne_none_iff_exists'.mp hfront
  rw [cursorLoop_append, hm]
  simp only [Option.some_bind, cursorLoop, cursorStep_of_next m p hq]
  cases hsl : goSlice p (stringsIndex p ltSign + 1) (stringsIndex p gtSign) with
  | none =>
    have := (slice_in_bounds_iff p hq.2.1 hq.2.2).mpr hlt
    rw [hsl] at this
  | some U =>
    simp only
    exact cursorLoop_of_none_next back U hback

/-- A list with an entry that has `rel="next"`, `<` and `>` has a last such entry. -/
theorem exists_last_next (ps : List GoString) (h : ∃ p ∈ ps, NextWithBrackets p) :
    ∃ front p back, ps = front ++ p :: back ∧ NextWithBrackets p ∧
      ∀ q ∈ back, ¬ NextWithBrackets q := by
  induction ps with
  | nil =>
    obtain ⟨p, hp, _⟩ := h
    cases hp
  | cons x rest ih =>
    by_cases hr : ∃ p ∈ rest, NextWithBrackets p
    · obtain ⟨front, p, back, hps, hq, hb⟩ := ih hr
      exact ⟨x :: front, p, back, by rw [hps]; rfl, hq, hb⟩
    · obtain ⟨p, hp, hq⟩ := h
      rcases List.mem_cons.mp hp with hpx | hpr
      · subst hpx
        refine ⟨[], p, rest, rfl, hq, ?_⟩
        intro q hqm hqq
        exact hr ⟨q, hqm, hqq⟩
      · exact absurd ⟨p, hpr, hq⟩ hr

end CursorLemmas

section FetchLemmas

variable {φ : Type}

/-- The results of `fetchRepos` on a response with status 200 whose cursor extraction
does not panic. -/
theorem fetchRepos_of_resp (net : Net φ) (debug : Bool) (url userName password : GoString)
    (w w1 : φ) (r : Response) (c : GoString)
    (hnet : net w url userName password = (w1, Transport.resp r))
    (hs : r.statusCode = 200) (hc : extractCursor r.linkParams = some c) :
    ∃ resp err, fetchRepos net debug url userName password w =
      (w1, FetchResult.ret c resp err) := by
  unfold fetchRepos
  rw [hnet]
  simp only [hs, ne_eq, not_true_eq_false, if_false, hc]
  cases r.readErr with
  | none => exact ⟨_, _, rfl⟩
  | some err => exact ⟨_, _, rfl⟩

/-- A call of `fetchRepos` that got a response and returned no error: the status was 200
and the returned cursor is the extracted one. -/
theorem fetchRepos_success (net : Net φ) (debug : Bool) (url userName password : GoString)
    (w w1 w2 : φ) (r : Response) (next : GoString) (resp : ReposResponse)
    (hnet : net w url userName password = (w1, Transport.resp r))
    (hok : fetchRepos net debug url userName password w =
      (w2, FetchResult.ret next resp none)) :
    r.statusCode = 200 ∧ extractCursor r.linkParams = some next := by
  unfold fetchRepos at hok
  rw [hnet] at hok
  simp only at hok
  by_cases hs : r.statusCode = 200
  · refine ⟨hs, ?_⟩
    simp only [hs, ne_eq, not_true_eq_false, if_false] at hok
    cases hc : extractCursor r.linkParams with
    | none =>
      rw [hc] at hok
      simp at hok
    | some c =>
      rw [hc] at hok
      cases hr : r.readErr with
      | none =>
        rw [hr] at hok
        simp only [Prod.mk.injEq, FetchResult.ret.injEq] at hok
        rw [hok.2.1]
      | some err =>
        rw [hr] at hok
        simp at hok
  · simp [hs] at hok

theorem relNext_infix_nextEntry (U : GoString) : relNext <:+: nextEntry U :=
  ⟨ltSign ++ U ++ gtSign ++ "; ".toList, [], by simp [nextEntry]⟩

theorem nextEntry_split (U : GoString) :
    nextEntry U = [] ++ '<' :: U ++ '>' :: ("; ".toList ++ relNext) := by
  simp [nextEntry, ltSign_eq, gtSign_eq]

theorem nextWithBrackets_nextEntry (U : GoString) : NextWithBrackets (nextEntry U) := by
  refine ⟨relNext_infix_nextEntry U, ?_, ?_⟩
  · rw [nextEntry_split]
    simp
  · rw [nextEntry_split]
    simp

end FetchLemmas

/-- C8: in a `Link` entry list in which `<U>; rel="next"` (no `<` or `>` in `U`) is the
only entry containing `rel="next"`, cursor extraction gives exactly `U`, and `fetchRepos`
on a status-200 response with that list returns `U` as the cursor; in a list in which no
entry contains `rel="next"` (the empty list included), extraction gives the empty string,
without a panic, and `fetchRepos` returns the empty cursor. -/
theorem C8_cursor_is_url_of_next_entry {φ : Type} (net : Net φ) (debug : Bool)
    (url userName password : GoString) (w w1 : φ) (r : Response)
    (hnet : net w url userName password = (w1, Transport.resp r))
    (hs : r.statusCode = 200) :
    (∀ front back U, r.linkParams = front ++ nextEntry U :: back → '<' ∉ U → '>' ∉ U →
      (∀ q ∈ front ++ back, ¬ relNext <:+: q) →
      extractCursor r.linkParams = some U ∧
      ∃ resp err, fetchRepos net debug url userName password w =
        (w1, FetchResult.ret U resp err)) ∧
    ((∀ q ∈ r.linkParams, ¬ relNext <:+: q) →
      extractCursor r.linkParams = some [] ∧
      ∃ resp err, fetchRepos net debug url userName password w =
        (w1, FetchResult.ret [] resp err)) := by
  constructor
  · intro front back U hps h1 h2 hothers
    have hfront : ∀ q ∈ front, ¬ NextWithBrackets q := fun q hq hn =>
      hothers q (List.mem_append_left _ hq) hn.1
    have hback : ∀ q ∈ back, ¬ NextWithBrackets q := fun q hq hn =>
      hothers q (List.mem_append_right _ hq) hn.1
    have hc : extractCursor r.linkParams = some U := by
      unfold extractCursor
      rw [hps, cursorLoop_append, cursorLoop_of_none_next front [] hfront]
      simp only [Option.some_bind, cursorLoop,
        cursorStep_of_next [] (nextEntry U) (nextWithBrackets_nextEntry U)]
      have hsl := goSlice_brackets [] U ("; ".toList ++ relNext) (by simp) (by simp) h2
      rw [← nextEntry_split] at hsl
      rw [hsl]
      exact cursorLoop_of_none_next back U hback
    exact ⟨hc, fetchRepos_of_resp net debug url userName password w w1 r U hnet hs hc⟩
  · intro hnone
    have hc : extractCursor r.linkParams = some [] :=
      cursorLoop_of_none_next r.linkParams [] (fun q hq hn => hnone q hq hn.1)
    exact ⟨hc, fetchRepos_of_resp net debug url userName password w w1 r [] hnet hs hc⟩

/-- C8 on the first page of the two-page listing: the cursor is the URL of page two. -/
theorem C8_witness_page_two :
    extractCursor [nextEntry pageTwoUrl] = some pageTwoUrl := by
  have h := C8_cursor_is_url_of_next_entry (twoPageNet : Net Unit) false (listingUrl "acme".toList)
    "op".toList "secret".toList () ()
    ⟨200, "200 OK".toList, [nextEntry pageTwoUrl], none,
      List.replicate 200 (descriptorOf widgetsUrl), none⟩ rfl rfl
  exact (h.1 [] [] pageTwoUrl rfl (by decide) (by decide) (by simp)).1

/-- C10: for an entry with a `<` and a `>`, the slice `param[s+1 : e]` is in bounds exactly
when the first `<` is before the first `>`.  For every `Link` entry list, extraction
panics if and only if some entry with `rel="next"`, `<` and `>` has its first `>` before
its first `<`.  Otherwise the result is the empty string when no entry has `rel="next"`,
`<` and `>`, and else the last such entry reads `a ++ "<" ++ U ++ ">" ++ b` with no `<`
or `>` in `a` and no `>` in `U`, and the result is `U`. -/
theorem C10_slice_panics_iff_gt_before_lt (ps : List GoString) :
    (∀ p, '<' ∈ p → '>' ∈ p →
      ((goSlice p (stringsIndex p ltSign + 1) (stringsIndex p gtSign)).isSome = true ↔
        stringsIndex p ltSign < stringsIndex p gtSign)) ∧
    (extractCursor ps = none ↔
      ∃ p ∈ ps, (relNext <:+: p ∧ '<' ∈ p ∧ '>' ∈ p) ∧
        stringsIndex p gtSign < stringsIndex p ltSign) ∧
    ((∀ q ∈ ps, ¬ (relNext <:+: q ∧ '<' ∈ q ∧ '>' ∈ q)) → extractCursor ps = some []) ∧
    (∀ front p back, ps = front ++ p :: back → (relNext <:+: p ∧ '<' ∈ p ∧ '>' ∈ p) →
      (∀ q ∈ back, ¬ (relNext <:+: q ∧ '<' ∈ q ∧ '>' ∈ q)) → extractCursor ps ≠ none →
      (∃ a U b, p = a ++ '<' :: U ++ '>' :: b ∧ '<' ∉ a ∧ '>' ∉ a ∧ '>' ∉ U) ∧
      ∀ a U b, p = a ++ '<' :: U ++ '>' :: b → '<' ∉ a → '>' ∉ a → '>' ∉ U →
        extractCursor ps = some U) := by
  refine ⟨fun p hl hg => slice_in_bounds_iff p hl hg, cursorLoop_none_iff ps [],
    fun h => cursorLoop_of_none_next ps [] h, ?_⟩
  intro front p back hps hq hback hne
  subst hps
  obtain ⟨hval, hlt⟩ := cursorLoop_last [] front back p hq hback hne
  refine ⟨split_brackets p hq.2.1 hq.2.2 hlt, ?_⟩
  intro a U b hp h1 h2 h3
  unfold extractCursor
  rw [hval, hp]
  exact goSlice_brackets a U b h1 h2 h3

/-- C10 on an entry whose `>` comes before its `<`: extraction panics. -/
theorem C10_witness_reversed_brackets :
    extractCursor ["> rel=\"next\" <".toList] = none := by
  have h := C10_slice_panics_iff_gt_before_lt ["> rel=\"next\" <".toList]
  exact h.2.1.mpr ⟨"> rel=\"next\" <".toList, by simp, by decide, by decide⟩

section PaginateLemmas

variable {φ : Type}

theorem paginate_empty (net : Net φ) (debug : Bool) (userName password : GoString)
    (fuel : Nat) (agg : ReposResponse) (w : φ) :
    paginate net debug userName password fuel [] agg w = ⟨some Exit.ok, agg, [], w⟩ := by
  cases fuel <;> simp [paginate]

theorem paginate_success (net : Net φ) (debug : Bool) (userName password : GoString)
    (fuel : Nat) (url next : GoString) (agg resp : ReposResponse) (w w1 : φ)
    (hurl : url ≠ [])
    (hok : fetchRepos net debug url userName password w =
      (w1, FetchResult.ret next resp none)) :
    paginate net debug userName password (fuel + 1) url agg w =
      ⟨(paginate net debug userName password fuel next (agg ++ resp) w1).exit,
        (paginate net debug userName password fuel next (agg ++ resp) w1).aggregated,
        url :: (paginate net debug userName password fuel next (agg ++ resp) w1).fetched,
        (paginate net debug userName password fuel next (agg ++ resp) w1).world⟩ := by
  simp only [paginate, hurl, if_false, hok]

theorem paginate_error (net : Net φ) (debug : Bool) (userName password : GoString)
    (fuel : Nat) (url next : GoString) (agg resp : ReposResponse) (w w1 : φ) (err : GoError)
    (hurl : url ≠ [])
    (herr : fetchRepos net debug url userName password w =
      (w1, FetchResult.ret next resp (some err))) :
    paginate net debug userName password (fuel + 1) url agg w =
      ⟨some (Exit.fatal err), agg, [url], w1⟩ := by
  simp only [paginate, hurl, if_false, herr]

/-- One more iteration on a non-empty URL fetches it, whatever the fetch gives. -/
theorem paginate_fetches_first (net : Net φ) (debug : Bool) (userName password : GoString)
    (fuel : Nat) (url : GoString) (agg : ReposResponse) (w : φ) (hurl : url ≠ []) :
    ∃ rest, (paginate net debug userName password (fuel + 1) url agg w).fetched
      = url :: rest := by
  simp only [paginate, hurl, if_false]
  split
  · exact ⟨[], rfl⟩
  · exact ⟨[], rfl⟩
  · exact ⟨_, rfl⟩

/-- The loop along a run of successful fetches: it goes on from the world and the cursor
they leave, with their pages appended. -/
theorem paginate_fetches (net : Net φ) (debug : Bool) (userName password : GoString)
    {w w2 : φ} {u u2 : GoString} {pages : List (GoString × ReposResponse)}
    (h : Fetches net debug userName password w u pages w2 u2) :
    ∀ (fuel : Nat) (agg : ReposResponse),
      paginate net debug userName password (pages.length + fuel) u agg w =
        ⟨(paginate net debug userName password fuel u2
            (agg ++ (pages.map Prod.snd).flatten) w2).exit,
          (paginate net debug userName password fuel u2
            (agg ++ (pages.map Prod.snd).flatten) w2).aggregated,
          pages.map Prod.fst ++ (paginate net debug userName password fuel u2
            (agg ++ (pages.map Prod.snd).flatten) w2).fetched,
          (paginate net debug userName password fuel u2
            (agg ++ (pages.map Prod.snd).flatten) w2).world⟩ := by
  induction h with
  | done w u =>
    intro fuel agg
    simp
  | step hurl hok _ ih =>
    intro fuel agg
    have hlen : ∀ (x : GoString × ReposResponse) (l : List (GoString × ReposResponse)),
        (x :: l).length + fuel = (l.length + fuel) + 1 := by
      intro x l
      simp only [List.length_cons]
      omega
    rw [hlen, paginate_success net debug userName password _ _ _ _ _ _ _ hurl hok, ih]
    simp [List.append_assoc]

end PaginateLemmas


/-- C2: when the successive calls of `fetchRepos` made from the listing URL all succeed
and return the listed pages, the last one with an empty cursor, the pagination loop of
`main` ends normally after fetching exactly those pages, its aggregate is their
concatenation in arrival order, of length the sum of the page lengths, and this
aggregate is what `main` hands to `processResponse`. -/
theorem C2_aggregate_is_concatenation_of_pages {φ : Type} (os : OS φ) (net : Net φ)
    (f : Flags) (s : Proc φ) (pages : List (GoString × ReposResponse)) (w2 : φ) (fuel : Nat)
    (hroot : f.rootPath ≠ []) (huser : f.userName ≠ []) (hpass : f.password ≠ [])
    (horg : f.githubOrgName ≠ [])
    (h : Fetches net f.debug f.userName f.password s.world (listingUrl f.githubOrgName)
      pages w2 []) :
    paginate net f.debug f.userName f.password (pages.length + fuel)
        (listingUrl f.githubOrgName) [] s.world =
      ⟨some Exit.ok, (pages.map Prod.snd).flatten, pages.map Prod.fst, w2⟩ ∧
    ((pages.map Prod.snd).flatten).length = (pages.map (fun x => x.2.length)).sum ∧
    (pages.map Prod.fst).length = pages.length ∧
    (main os net (pages.length + fuel) f s).processed = some (pages.map Prod.snd).flatten ∧
    (main os net (pages.length + fuel) f s).fetched = pages.map Prod.fst := by
  have hp := paginate_fetches net f.debug f.userName f.password h fuel []
  rw [paginate_empty] at hp
  simp only [List.nil_append, List.append_nil] at hp
  refine ⟨hp, ?_, by simp, ?_, ?_⟩
  · rw [List.length_flatten, List.map_map]
    rfl
  · simp only [main, hroot, huser, hpass, horg, if_false, hp]
  · simp only [main, hroot, huser, hpass, horg, if_false, hp]

/-- C2 on the two-page listing (200 descriptors and a next cursor, then 3 descriptors and
no cursor): the aggregate has 203 entries and two fetches occur. -/
theorem C2_witness_two_pages :
    (main demoOS twoPageNet 2 demoFlags ⟨demoHome, []⟩).processed.map List.length
      = some 203 ∧
    (main demoOS twoPageNet 2 demoFlags ⟨demoHome, []⟩).fetched.length = 2 := by
  have h := C2_aggregate_is_concatenation_of_pages demoOS twoPageNet demoFlags
    ⟨demoHome, []⟩
    [(listingUrl "acme".toList, List.replicate 200 (descriptorOf widgetsUrl)),
      (pageTwoUrl, List.replicate 3 (descriptorOf myRepoUrl))] [] 0
    (by decide) (by decide) (by decide) (by decide)
    (Fetches.step (by decide) rfl (Fetches.step (by decide) rfl (Fetches.done _ _)))
  have h4 := h.2.2.2.1
  have h5 := h.2.2.2.2
  constructor
  · rw [show (2 : Nat) = [(listingUrl "acme".toList,
        List.replicate 200 (descriptorOf widgetsUrl)),
        (pageTwoUrl, List.replicate 3 (descriptorOf myRepoUrl))].length + 0 from rfl, h4]
    rfl
  · rw [show (2 : Nat) = [(listingUrl "acme".toList,
        List.replicate 200 (descriptorOf widgetsUrl)),
        (pageTwoUrl, List.replicate 3 (descriptorOf myRepoUrl))].length + 0 from rfl, h5]
    rfl

/-- C9: when, after some successful fetches, a call of `fetchRepos` made by the loop
returns an error, `main` ends fatally with that error; the URLs fetched are those of the
successful pages and the failing one, and no more however long the loop could still
run; `processResponse` is not called and no `git` call is made. -/
theorem C9_fetch_error_aborts_the_run {φ : Type} (os : OS φ) (net : Net φ)
    (f : Flags) (s : Proc φ) (pages : List (GoString × ReposResponse)) (w2 w3 : φ)
    (u2 next : GoString) (resp : ReposResponse) (err : GoError) (fuel : Nat)
    (hroot : f.rootPath ≠ []) (huser : f.userName ≠ []) (hpass : f.password ≠ [])
    (horg : f.githubOrgName ≠ [])
    (h : Fetches net f.debug f.userName f.password s.world (listingUrl f.githubOrgName)
      pages w2 u2)
    (hu2 : u2 ≠ [])
    (herr : fetchRepos net f.debug u2 f.userName f.password w2 =
      (w3, FetchResult.ret next resp (some err))) :
    main os net (pages.length + (fuel + 1)) f s =
      ⟨some (Exit.fatal err), pages.map Prod.fst ++ [u2], none, [], ⟨s.cwd, w3⟩⟩ := by
  have hp := paginate_fetches net f.debug f.userName f.password h (fuel + 1) []
  rw [paginate_error net f.debug f.userName f.password fuel u2 next _ resp w2 w3 err hu2
    herr] at hp
  simp only [main, hroot, huser, hpass, horg, if_false, hp]

/-- C9 on a listing whose second page is answered with status 500: the run ends fatally
with that status after two fetches, and nothing is processed. -/
theorem C9_witness_second_page_fails :
    main demoOS brokenSecondPageNet 5 demoFlags ⟨demoHome, []⟩ =
      ⟨some (Exit.fatal "500 Internal Server Error".toList),
        [listingUrl "acme".toList, pageTwoUrl], none, [], ⟨demoHome, []⟩⟩ :=
  C9_fetch_error_aborts_the_run demoOS brokenSecondPageNet demoFlags ⟨demoHome, []⟩
    [(listingUrl "acme".toList, [descriptorOf widgetsUrl])] [] [] pageTwoUrl [] []
    "500 Internal Server Error".toList 3
    (by decide) (by decide) (by decide) (by decide)
    (Fetches.step (by decide) rfl (Fetches.done _ _)) (by decide) rfl

/-- C7, as the code has it: after a call of `fetchRepos` that got a response and returned
no error, another fetch is made if and only if the returned cursor is not empty, that
is if and only if the last `Link` entry that has `rel="next"`, `<` and `>` has a
non-empty text `U` between its first `<` and its first `>`; in particular no further
fetch is made when no entry contains `rel="next"`. -/
theorem C7_next_fetch_iff_cursor_nonempty {φ : Type} (net : Net φ) (debug : Bool)
    (url userName password next : GoString) (agg resp : ReposResponse) (w w1 : φ)
    (r : Response) (fuel : Nat)
    (hurl : url ≠ [])
    (hnet : net w url userName password = (w1, Transport.resp r))
    (hok : fetchRepos net debug url userName password w =
      (w1, FetchResult.ret next resp none)) :
    (2 ≤ (paginate net debug userName password (fuel + 2) url agg w).fetched.length ↔
      next ≠ []) ∧
    (next ≠ [] ↔
      ∃ front p back a U b, r.linkParams = front ++ p :: back ∧
        (relNext <:+: p ∧ '<' ∈ p ∧ '>' ∈ p) ∧
        (∀ q ∈ back, ¬ (relNext <:+: q ∧ '<' ∈ q ∧ '>' ∈ q)) ∧
        p = a ++ '<' :: U ++ '>' :: b ∧ '<' ∉ a ∧ '>' ∉ a ∧ '>' ∉ U ∧ U ≠ []) ∧
    ((∀ q ∈ r.linkParams, ¬ relNext <:+: q) → next = []) := by
  obtain ⟨_, hc⟩ := fetchRepos_success net debug url userName password w w1 w1 r next resp
    hnet hok
  have hne : extractCursor r.linkParams ≠ none := by
    rw [hc]
    simp
  refine ⟨?_, ?_, ?_⟩
  · rw [paginate_success net debug userName password (fuel + 1) url next agg resp w w1 hurl
      hok]
    simp only [List.length_cons]
    by_cases hn : next = []
    · subst hn
      rw [paginate_empty]
      simp
    · obtain ⟨rest, hrest⟩ := paginate_fetches_first net debug userName password fuel next
        (agg ++ resp) w1 hn
      rw [hrest]
      simp [hn]
  · constructor
    · intro hn
      have hex : ∃ p ∈ r.linkParams, NextWithBrackets p := by
        by_contra hcon
        have := cursorLoop_of_none_next r.linkParams []
          (fun q hq hqq => hcon ⟨q, hq, hqq⟩)
        unfold extractCursor at hc
        rw [this] at hc
        exact hn (Option.some.inj hc).symm
      obtain ⟨front, p, back, hps, hq, hback⟩ := exists_last_next r.linkParams hex
      rw [hps] at hne
      obtain ⟨hval, hlt⟩ := cursorLoop_last [] front back p hq hback hne
      obtain ⟨a, U, b, hp, h1, h2, h3⟩ := split_brackets p hq.2.1 hq.2.2 hlt
      refine ⟨front, p, back, a, U, b, hps, hq, hback, hp, h1, h2, h3, ?_⟩
      have hU : extractCursor r.linkParams = some U := by
        unfold extractCursor
        rw [hps, hval, hp]
        exact goSlice_brackets a U b h1 h2 h3
      rw [hc] at hU
      rw [← Option.some.inj hU]
      exact hn
    · rintro ⟨front, p, back, a, U, b, hps, hq, hback, hp, h1, h2, h3, hU⟩
      rw [hps] at hne
      obtain ⟨hval, _⟩ := cursorLoop_last [] front back p hq hback hne
      have hcU : extractCursor r.linkParams = some U := by
        unfold extractCursor
        rw [hps, hval, hp]
        exact goSlice_brackets a U b h1 h2 h3
      rw [hc] at hcU
      rw [Option.some.inj hcU]
      exact hU
  · intro hnone
    have := cursorLoop_of_none_next r.linkParams [] (fun q hq hn => hnone q hq hn.1)
    unfold extractCursor at hc
    rw [this] at hc
    exact (Option.some.inj hc).symm

/-- C7 as amended, on the first page of the two-page listing: its cursor is not empty and a
second fetch is made. -/
theorem C7_witness_second_fetch :
    2 ≤ (paginate (twoPageNet : Net Unit) false "op".toList "secret".toList 2
      (listingUrl "acme".toList) [] ()).fetched.length :=
  (C7_next_fetch_iff_cursor_nonempty (twoPageNet : Net Unit) false
    (listingUrl "acme".toList) "op".toList "secret".toList pageTwoUrl []
    (List.replicate 200 (descriptorOf widgetsUrl)) () ()
    ⟨200, "200 OK".toList, [nextEntry pageTwoUrl], none,
      List.replicate 200 (descriptorOf widgetsUrl), none⟩ 0
    (by decide) rfl rfl).1.mpr (by decide)

/-- C7 as stated fails: the only page of this listing is fetched successfully and its
`Link` list has an entry containing `rel="next"` (the entry is just `rel="next"`), yet
the cursor is empty, the loop ends, and no second fetch is made. -/
theorem C7_counterexample_bare_rel_next :
    (bareNextNet : Net Unit) () (listingUrl "acme".toList) "op".toList "secret".toList =
      ((), Transport.resp ⟨200, "200 OK".toList, [relNext], none,
        [descriptorOf widgetsUrl], none⟩) ∧
    fetchRepos (bareNextNet : Net Unit) false (listingUrl "acme".toList) "op".toList
        "secret".toList () = ((), FetchResult.ret [] [descriptorOf widgetsUrl] none) ∧
    (∃ q ∈ [relNext], relNext <:+: q) ∧
    (paginate (bareNextNet : Net Unit) false "op".toList "secret".toList 5
      (listingUrl "acme".toList) [] ()).exit = some Exit.ok ∧
    (paginate (bareNextNet : Net Unit) false "op".toList "secret".toList 5
      (listingUrl "acme".toList) [] ()).fetched = [listingUrl "acme".toList] ∧
    ¬ (2 ≤ (paginate (bareNextNet : Net Unit) false "op".toList "secret".toList 5
      (listingUrl "acme".toList) [] ()).fetched.length ↔ ∃ q ∈ [relNext], relNext <:+: q) := by
  have hex : ∃ q ∈ [relNext], relNext <:+: q := ⟨relNext, by simp, List.infix_refl _⟩
  have hf : (paginate (bareNextNet : Net Unit) false "op".toList "secret".toList 5
      (listingUrl "acme".toList) [] ()).fetched = [listingUrl "acme".toList] := by decide
  refine ⟨rfl, rfl, hex, by decide, hf, ?_⟩
  intro hiff
  have := hiff.mpr hex
  rw [hf] at this
  simp at this

/-- The cases of `execGitCommand` in which the working directory at return is the one
before the call: `Getwd` fails, `Chdir(dirPath)` fails, or the output of `git` is read and
the final `Chdir(cwd)` succeeds. -/
theorem execGitCommand_cwd_restored {φ : Type} (os : OS φ) (index total : Nat)
    (dirPath gitUrl : GoString) (args : List GoString) (s : Proc φ)
    (h : os.getwdErr s ≠ none ∨ os.chdirErr s dirPath ≠ none ∨
      ((os.spawnGit ⟨dirPath, s.world⟩ args).2.readErr = none ∧
        os.chdirErr ⟨dirPath, (os.spawnGit ⟨dirPath, s.world⟩ args).1⟩ s.cwd = none)) :
    (execGitCommand os index total dirPath gitUrl args s).1.cwd = s.cwd := by
  unfold execGitCommand
  cases hg : os.getwdErr s with
  | some e => rfl
  | none =>
    cases hc : os.chdirErr s dirPath with
    | some e => rfl
    | none =>
      rcases h with h | h | ⟨h1, h2⟩
      · exact absurd hg h
      · exact absurd hc h
      · simp only [h1, h2]

/-- C5 fails on the code: when reading the output of `git` fails, `execGitCommand` returns
the read error with the working directory still `dirPath`, not the directory before the
call. -/
theorem C5_read_failure_leaves_cwd_changed :
    (execGitCommand readFailOS 0 1 demoRoot widgetsUrl ["clone".toList, widgetsUrl]
        ⟨demoHome, []⟩).1.cwd = demoRoot ∧
    (execGitCommand readFailOS 0 1 demoRoot widgetsUrl ["clone".toList, widgetsUrl]
        ⟨demoHome, []⟩).2 = some "read |0: input/output error".toList ∧
    (execGitCommand readFailOS 0 1 demoRoot widgetsUrl ["clone".toList, widgetsUrl]
        ⟨demoHome, []⟩).1.cwd ≠ (⟨demoHome, []⟩ : Proc DemoFS).cwd := by
  decide

end Gitem
